import Mathlib

/-!
Verification of the jackalope mutation-engine sources against their
natural-language specification.

Shallow embedding of:
* `src/mutator.h` — `fill_probs_q_tcag`, `fill_mut_lengths`;
* `src/molecular_evolution.cpp` — the `MutationSampler` constructor and
  the `weighted_reservoir_` template;
* `src/create_sequences.cpp` — `create_sequences_` (sequence lengths);
* `src/var_classes.h` — `AllMutations` and its operations.

C++ `double` arithmetic is modelled by exact rational arithmetic in `ℚ`,
following the spec's reading "over exact real arithmetic".  Machine
integers (`uint32`, `uint64`, `sint32`, `sint64`) are modelled by `ℕ` and
`ℤ`; no quantity in the verified claims approaches the wrap-around bound.
-/

namespace Jackalope

/- ======================================================================
   Rate-model constructions (mutator.h lines 143-217 and
   molecular_evolution.cpp lines 36-104)
   ====================================================================== -/

/-- Normalised-then-scaled insertion rates, `molecular_evolution.cpp`
lines 47-52: `rel_insertion_rates /= accu(rel_insertion_rates);
rel_insertion_rates *= xi / (1 + 1/psi)`. -/
def scaledInsRates (xi psi : ℚ) (relIns : List ℚ) : List ℚ :=
  relIns.map fun x => x / relIns.sum * (xi / (1 + 1 / psi))

/-- Normalised-then-scaled deletion rates, `molecular_evolution.cpp`
lines 48-53: `rel_deletion_rates /= accu(rel_deletion_rates);
rel_deletion_rates *= xi / (1 + psi)`. -/
def scaledDelRates (xi psi : ℚ) (relDel : List ℚ) : List ℚ :=
  relDel.map fun x => x / relDel.sum * (xi / (1 + psi))

/-- `event_lengths` as built by the `MutationSampler` constructor,
`molecular_evolution.cpp` lines 89-98: a zero vector of length `4+I+D`
whose slot `i+4` is overwritten with `i+1` (insertions) and whose slot
`i+4+I` is overwritten with `-(i+1)` (deletions). -/
def ctorEventLengths (relIns relDel : List ℚ) : List ℤ :=
  let nI := relIns.length
  let nD := relDel.length
  let v0 : List ℤ := List.replicate (4 + nI + nD) 0
  let v1 := (List.range nI).foldl (fun v i => v.set (i + 4) ((i : ℤ) + 1)) v0
  (List.range nD).foldl (fun v i => v.set (i + 4 + nI) (-((i : ℤ) + 1))) v1

/-- Output of the `MutationSampler` constructor of
`molecular_evolution.cpp` lines 36-104: the per-base cached rates
(`rates[c] = qi`), the per-base event-probability vectors handed to the
`TableSampler`, and the `event_lengths` vector.  (The insertion-string
sampler built from `pis` is out of scope of the verified claims.) -/
structure MutSamplerModel where
  rates : Fin 4 → ℚ
  probs : Fin 4 → List ℚ
  event_lengths : List ℤ

/-- The `MutationSampler` constructor, `molecular_evolution.cpp` lines
36-104.  For each base `i` it takes column `i` of `Q`
(`qc = Q.col(i)`), sets `qi = -qc[i]`, caches `rates[c] = qi`, zeroes
`qc[i]`, appends the scaled insertion and deletion rates and divides
every entry by `qi`.  The 4-element column is unrolled literally from
the loop `for j < 4`. -/
def mutationSamplerCtor (Q : Fin 4 → Fin 4 → ℚ) (xi psi : ℚ)
    (pis relIns relDel : List ℚ) : MutSamplerModel :=
  let ins := scaledInsRates xi psi relIns
  let del := scaledDelRates xi psi relDel
  { rates := fun b => -([Q 0 b, Q 1 b, Q 2 b, Q 3 b].getD b.val 0)
    probs := fun b =>
      let qi := -([Q 0 b, Q 1 b, Q 2 b, Q 3 b].getD b.val 0)
      (([Q 0 b, Q 1 b, Q 2 b, Q 3 b].set b.val 0) ++ ins ++ del).map
        fun x => x / qi
    event_lengths := ctorEventLengths relIns relDel }

/-- Pre-normalisation event-rate vector `qc` built by
`fill_probs_q_tcag`, `mutator.h` lines 159-178: row `b` of `Q` with the
diagonal entry zeroed, then the insertion and deletion rates each
multiplied by `0.25`.  The parameter `pi_tcag` belongs to the C++
signature but is unused by the function body. -/
def fillQc (Q : Fin 4 → Fin 4 → ℚ) (pi_tcag insRates delRates : List ℚ)
    (b : Fin 4) : List ℚ :=
  ([Q b 0, Q b 1, Q b 2, Q b 3].set b.val 0)
    ++ insRates.map (fun x => x * (1 / 4))
    ++ delRates.map (fun x => x * (1 / 4))

/-- `q_tcag[b]` as filled by `fill_probs_q_tcag`, `mutator.h` lines
179-184: `qi = accumulate(qc.begin(), qc.end(), 0.0)`. -/
def fillQtcag (Q : Fin 4 → Fin 4 → ℚ) (pi_tcag insRates delRates : List ℚ)
    (b : Fin 4) : ℚ :=
  (fillQc Q pi_tcag insRates delRates b).sum

/-- `probs[b]` as filled by `fill_probs_q_tcag`, `mutator.h` lines
181-182: every entry of `qc` divided by `qi`. -/
def fillProbs (Q : Fin 4 → Fin 4 → ℚ) (pi_tcag insRates delRates : List ℚ)
    (b : Fin 4) : List ℚ :=
  (fillQc Q pi_tcag insRates delRates b).map
    fun x => x / fillQtcag Q pi_tcag insRates delRates b

/-- `fill_mut_lengths`, `mutator.h` lines 196-217: four zeroes, then
`i+1` for each insertion length, then `-(i+1)` for each deletion
length. -/
def fill_mut_lengths (insRates delRates : List ℚ) : List ℤ :=
  List.replicate 4 (0 : ℤ)
    ++ (List.range insRates.length).map (fun i : ℕ => (i : ℤ) + 1)
    ++ (List.range delRates.length).map (fun i : ℕ => -((i : ℤ) + 1))

/-- A symmetric substitution-rate matrix with zero row sums (diagonal
`-3`, all off-diagonal entries `1`), used as a concrete valid input. -/
def Qsym : Fin 4 → Fin 4 → ℚ := fun i j => if i.val = j.val then -3 else 1

/-- An asymmetric substitution-rate matrix with zero row sums:
row 1 is `[2, -4, 1, 1]`, the other rows have diagonal `-3` and
off-diagonal entries `1`.  Column 0 is `[-3, 2, 1, 1]`, which differs
from row 0 `[-3, 1, 1, 1]`. -/
def Qasym : Fin 4 → Fin 4 → ℚ := fun i j =>
  if i.val = j.val then (if i.val = 1 then -4 else -3)
  else if i.val = 1 ∧ j.val = 0 then 2 else 1

/- ======================================================================
   weighted_reservoir_ (molecular_evolution.cpp lines 117-156)

   The RNG engine is modelled as an infinite stream of uniform draws
   `stream : ℕ → ℚ` together with a cursor `k` giving the next unread
   position (each `runif_*` call consumes one draw).  The external
   library functions `std::log` and `std::pow` (and `runif_ab`, which is
   declared in a header outside `src/`) are parameters of the embedding:
   the verified control-flow properties hold for every interpretation of
   them.
   ====================================================================== -/

/-- Loop state of `weighted_reservoir_`: the currently kept key and
position, the outer cursor `c`, and the RNG stream cursor `k`. -/
structure WRState where
  largest_key : ℚ
  largest_pos : ℕ
  c : ℕ
  k : ℕ
deriving DecidableEq

/-- The inner accumulation loop of `weighted_reservoir_`
(`molecular_evolution.cpp` lines 136-140):
`while (X > wt_sum1 && i < end) { i++; wt_sum0 += rates[i-1]; wt_sum1 += rates[i]; }`.
The loop is bounded because each iteration requires `i < e` and
increments `i`; it is run with fuel `e - i`, which is exact for the
initial call. -/
def innerLoop (rates : ℕ → ℚ) (e : ℕ) (X : ℚ) :
    ℕ → ℕ → ℚ → ℚ → ℕ × ℚ × ℚ
  | 0, i, w0, w1 => (i, w0, w1)
  | fuel + 1, i, w0, w1 =>
    if X > w1 ∧ i < e then
      innerLoop rates e X fuel (i + 1) (w0 + rates i) (w1 + rates (i + 1))
    else (i, w0, w1)

/-- Result of one iteration of the outer `while (c < end)` loop:
either the function returns (`break`, or the loop guard fails), or the
loop continues with a new state. -/
inductive WRStep where
  | done (res : ℕ)
  | next (st : WRState)
deriving DecidableEq

/-- One iteration of the outer loop of `weighted_reservoir_`
(`molecular_evolution.cpp` lines 130-153).  Reading the body:
draw `r`, compute `X = log r / log largest_key`, run the inner
accumulation loop from `i = c+1`, `wt_sum0 = rates[c]`,
`wt_sum1 = rates[c] + rates[c+1]`; then `break` if `X > wt_sum1`,
`continue` (consuming the draw) if `wt_sum0 ≥ X`, otherwise adopt
position `i` with a fresh key and set `c = i`. -/
def outerStep (logf : ℚ → ℚ) (powf : ℚ → ℚ → ℚ) (unif : ℚ → ℚ → ℚ → ℚ)
    (rates stream : ℕ → ℚ) (e : ℕ) (st : WRState) : WRStep :=
  if st.c < e then
    let r := stream st.k
    let X := logf r / logf st.largest_key
    let t3 := innerLoop rates e X (e - (st.c + 1)) (st.c + 1)
      (rates st.c) (rates st.c + rates (st.c + 1))
    if X > t3.2.2 then .done st.largest_pos
    else if t3.2.1 ≥ X then .next { st with k := st.k + 1 }
    else
      let w := rates t3.1
      let r2 := unif (stream (st.k + 1)) (powf st.largest_key w) 1
      .next ⟨powf r2 (1 / w), t3.1, t3.1, st.k + 2⟩
  else .done st.largest_pos

/-- The outer `while (c < end)` loop, run with explicit fuel: the
`continue` branch re-draws without advancing the cursor, so no a-priori
iteration bound exists (see the C5 analysis). -/
def outerLoop (logf : ℚ → ℚ) (powf : ℚ → ℚ → ℚ) (unif : ℚ → ℚ → ℚ → ℚ)
    (rates stream : ℕ → ℚ) (e : ℕ) : ℕ → WRState → Option ℕ
  | 0, _ => none
  | fuel + 1, st =>
    match outerStep logf powf unif rates stream e st with
    | .done res => some res
    | .next st2 => outerLoop logf powf unif rates stream e fuel st2

/-- `weighted_reservoir_` (`molecular_evolution.cpp` lines 117-156):
initialises `largest_key = pow(r, 1/rates[start])`,
`largest_pos = start`, `c = start`, then runs the outer loop. -/
def weighted_reservoir_ (logf : ℚ → ℚ) (powf : ℚ → ℚ → ℚ)
    (unif : ℚ → ℚ → ℚ → ℚ) (start e : ℕ) (rates stream : ℕ → ℚ)
    (fuel : ℕ) : Option ℕ :=
  outerLoop logf powf unif rates stream e fuel
    ⟨powf (stream 0) (1 / rates start), start, start, 1⟩

/-- Divergence of `weighted_reservoir_` at one concrete valid input:
`start = 0 ≤ end = 2`, all weights `1` (strictly positive), the engine
drawing `1/2` forever, `pow` and `log` interpreted consistently with
the real functions at every evaluated point — and the run returns
`none` at every fuel bound, i.e. the loop never terminates. -/
def reservoirDivergesAtHalfStream : Prop :=
  ∀ fuel, weighted_reservoir_ (fun _ => (-1 : ℚ)) (fun a _ => a)
    (fun r a b => a + r * (b - a)) 0 2 (fun _ => (1 : ℚ))
    (fun _ => (1 / 2 : ℚ)) fuel = none

/- ======================================================================
   create_sequences_ (create_sequences.cpp lines 56-130)

   Only the sequence-length logic is in the verified claims.  The gamma
   draws `distr(engine)` are modelled as a stream of `double` results,
   each classified as finite (an exact rational) or non-finite
   (`inf`/`nan`); the stream cursor counts the draws consumed.  The
   model follows one worker (`n_cores = 1`, the default).
   ====================================================================== -/

/-- A C++ `double` classified for finiteness: a gamma draw may in
principle produce a non-finite value. -/
inductive Dbl where
  | fin (q : ℚ)
  | nonfin
deriving DecidableEq

/-- `static_cast<uint32>` of a `double`: truncation toward zero for
finite non-negative values (the only values the claims exercise
besides non-finite ones).  For negative or non-finite doubles the C++
cast is undefined behaviour; the model picks `0`.  No branch of
`create_sequences_` inspects the value class, so the choice is
irrelevant to the claims. -/
def castU32 : Dbl → ℕ
  | .fin q => (⌊q⌋).toNat
  | .nonfin => 0

/-- The length computation for one sequence, `create_sequences.cpp`
lines 111-116:
`if (len_sd > 0) { len = (uint32)(distr(engine)); if (len < 1) len = 1; }
else len = len_mean;`
Returns the length together with the advanced draw-stream cursor. -/
def seqLen (lenMean lenSd : ℚ) (draws : ℕ → Dbl) (k : ℕ) : ℕ × ℕ :=
  if 0 < lenSd then (max (castU32 (draws k)) 1, k + 1)
  else (castU32 (.fin lenMean), k)

/-- The lengths of the `n` sequences produced by the `create_sequences_`
loop (lines 108-123, one worker), threading the gamma-draw cursor from
sequence to sequence; returns the list of lengths and the total number
of gamma draws consumed. -/
def createSeqLens (lenMean lenSd : ℚ) (draws : ℕ → Dbl) : ℕ → List ℕ × ℕ
  | 0 => ([], 0)
  | n + 1 =>
    let p := createSeqLens lenMean lenSd draws n
    let r := seqLen lenMean lenSd draws p.2
    (p.1 ++ [r.1], r.2)

/- ======================================================================
   AllMutations (var_classes.h lines 100-280)

   The `nucleos` deque holds raw owning `char*` pointers into the heap
   (`new[]` in `fill_one_nucleos__`, `delete[]` in `erase` and the
   destructor).  The heap is modelled explicitly: addresses are natural
   numbers, a bump allocator hands out fresh addresses, and each
   allocated block holds the byte string (the strings stored never
   contain a NUL byte, so the `strlen`-bounded copy in
   `fill_one_nucleos__` copies the whole string).  A null pointer is
   `Option.none`. -/

/-- The heap: the next fresh address and the allocated blocks. -/
structure Heap where
  next : ℕ
  mem : ℕ → Option (List Char)

/-- `new char[...]` plus the copy loop of `fill_one_nucleos__`:
allocates a fresh block holding the given bytes. -/
def Heap.alloc (h : Heap) (s : List Char) : ℕ × Heap :=
  (h.next, ⟨h.next + 1, fun p => if p = h.next then some s else h.mem p⟩)

/-- `delete [] p`. -/
def Heap.free (h : Heap) (p : ℕ) : Heap :=
  ⟨h.next, fun q => if q = p then none else h.mem q⟩

/-- Read the NUL-terminated bytes a (possibly null) `char*` points to;
a dangling pointer reads as the empty string (undefined behaviour in
C++, never exercised under the stated validity hypotheses). -/
def Heap.strAt (h : Heap) (nt : Option ℕ) : Option (List Char) :=
  nt.map fun p => (h.mem p).getD []

/-- `fill_one_nucleos__(const char* nts, char** one_nucleos)`
(`var_classes.h` lines 261-271) with the *contents* of the source
buffer as argument: null stays null (the target slot keeps its
`nullptr`), otherwise a fresh block is allocated and the bytes copied. -/
def fillOneNucleos (h : Heap) (nts : Option (List Char)) : Option ℕ × Heap :=
  match nts with
  | none => (none, h)
  | some s => ((h.alloc s).1, (h.alloc s).2)

/-- `fill_one_nucleos__(const char& nt, char** one_nucleos)`
(`var_classes.h` lines 273-278): always allocates a fresh 1-byte
string. -/
def fillOneNucleosChr (h : Heap) (c : Char) : Option ℕ × Heap :=
  ((h.alloc [c]).1, (h.alloc [c]).2)

/-- The copy loop shared by the `AllMutations` copy constructor (lines
114-116) and copy assignment (lines 125-127): for each source slot,
read the pointed-to bytes out of the heap and allocate a fresh copy. -/
def copyNucleos (h : Heap) : List (Option ℕ) → List (Option ℕ) × Heap
  | [] => ([], h)
  | nt :: rest =>
    let f := fillOneNucleos h (h.strAt nt)
    let r := copyNucleos f.2 rest
    (f.1 :: r.1, r.2)

/-- `for (i < nucleos.size()) delete [] nucleos[i]` (assignment operator
line 123; `delete []` of `nullptr` is a no-op). -/
def freeNucleos (h : Heap) : List (Option ℕ) → Heap
  | [] => h
  | nt :: rest => freeNucleos (nt.elim h h.free) rest

/-- `AllMutations` (`var_classes.h` lines 100-280): four parallel deques
sharing index `i`. -/
structure AllMutations where
  size_modifier : List ℤ
  old_pos : List ℕ
  new_pos : List ℕ
  nucleos : List (Option ℕ)

namespace AllMutations

/-- `size()`: consults only `old_pos` (line 137-139). -/
def size (m : AllMutations) : ℕ := m.old_pos.length

/-- `empty()`: consults only `old_pos` (line 141-143). -/
def emptyq (m : AllMutations) : Bool := m.old_pos.isEmpty

/-- Copy constructor (lines 109-117): the three scalar deques are
copied, `nucleos` is rebuilt by allocating a fresh copy of every
record's bytes. -/
def copy (m : AllMutations) (h : Heap) : AllMutations × Heap :=
  (⟨m.size_modifier, m.old_pos, m.new_pos, (copyNucleos h m.nucleos).1⟩,
    (copyNucleos h m.nucleos).2)

/-- Copy assignment (lines 118-129): frees the destination's blocks,
then copies as the copy constructor does. -/
def assign (dest src : AllMutations) (h : Heap) : AllMutations × Heap :=
  let h1 := freeNucleos h dest.nucleos
  (⟨src.size_modifier, src.old_pos, src.new_pos,
      (copyNucleos h1 src.nucleos).1⟩,
    (copyNucleos h1 src.nucleos).2)

/-- `push_front(sm, op, np, const char* nts)` (lines 162-172); the
argument is the contents of the caller's buffer. -/
def push_front (m : AllMutations) (sm : ℤ) (op np : ℕ)
    (nts : Option (List Char)) (h : Heap) : AllMutations × Heap :=
  (⟨sm :: m.size_modifier, op :: m.old_pos, np :: m.new_pos,
      (fillOneNucleos h nts).1 :: m.nucleos⟩,
    (fillOneNucleos h nts).2)

/-- `push_front(sm, op, np, const char& nt)` (lines 173-183). -/
def push_front_chr (m : AllMutations) (sm : ℤ) (op np : ℕ) (c : Char)
    (h : Heap) : AllMutations × Heap :=
  (⟨sm :: m.size_modifier, op :: m.old_pos, np :: m.new_pos,
      (fillOneNucleosChr h c).1 :: m.nucleos⟩,
    (fillOneNucleosChr h c).2)

/-- `push_back(sm, op, np, const char* nts)` (lines 185-195). -/
def push_back (m : AllMutations) (sm : ℤ) (op np : ℕ)
    (nts : Option (List Char)) (h : Heap) : AllMutations × Heap :=
  (⟨m.size_modifier ++ [sm], m.old_pos ++ [op], m.new_pos ++ [np],
      m.nucleos ++ [(fillOneNucleos h nts).1]⟩,
    (fillOneNucleos h nts).2)

/-- `push_back(sm, op, np, const char& nt)` (lines 196-206). -/
def push_back_chr (m : AllMutations) (sm : ℤ) (op np : ℕ) (c : Char)
    (h : Heap) : AllMutations × Heap :=
  (⟨m.size_modifier ++ [sm], m.old_pos ++ [op], m.new_pos ++ [np],
      m.nucleos ++ [(fillOneNucleosChr h c).1]⟩,
    (fillOneNucleosChr h c).2)

/-- `insert(ind, sm, op, np, const char* nts)` (lines 208-220):
`deque::insert(begin()+ind, x)` on each of the four deques. -/
def insertAt (m : AllMutations) (ind : ℕ) (sm : ℤ) (op np : ℕ)
    (nts : Option (List Char)) (h : Heap) : AllMutations × Heap :=
  (⟨m.size_modifier.take ind ++ sm :: m.size_modifier.drop ind,
      m.old_pos.take ind ++ op :: m.old_pos.drop ind,
      m.new_pos.take ind ++ np :: m.new_pos.drop ind,
      m.nucleos.take ind ++ (fillOneNucleos h nts).1 :: m.nucleos.drop ind⟩,
    (fillOneNucleos h nts).2)

/-- `insert(ind, sm, op, np, const char& nt)` (lines 221-233). -/
def insertAt_chr (m : AllMutations) (ind : ℕ) (sm : ℤ) (op np : ℕ)
    (c : Char) (h : Heap) : AllMutations × Heap :=
  (⟨m.size_modifier.take ind ++ sm :: m.size_modifier.drop ind,
      m.old_pos.take ind ++ op :: m.old_pos.drop ind,
      m.new_pos.take ind ++ np :: m.new_pos.drop ind,
      m.nucleos.take ind ++ (fillOneNucleosChr h c).1 :: m.nucleos.drop ind⟩,
    (fillOneNucleosChr h c).2)

/-- `erase(ind)` (lines 235-243): erases slot `ind` from each deque and
`delete []`s the owned block. -/
def eraseAt (m : AllMutations) (ind : ℕ) (h : Heap) : AllMutations × Heap :=
  (⟨m.size_modifier.take ind ++ m.size_modifier.drop (ind + 1),
      m.old_pos.take ind ++ m.old_pos.drop (ind + 1),
      m.new_pos.take ind ++ m.new_pos.drop (ind + 1),
      m.nucleos.take ind ++ m.nucleos.drop (ind + 1)⟩,
    (m.nucleos.getD ind none).elim h h.free)

/-- `erase(ind1, ind2)` (lines 246-254): erases the index range
`[ind1, ind2)` from each deque, `delete []`ing the owned blocks. -/
def eraseRange (m : AllMutations) (i1 i2 : ℕ) (h : Heap) :
    AllMutations × Heap :=
  (⟨m.size_modifier.take i1 ++ m.size_modifier.drop i2,
      m.old_pos.take i1 ++ m.old_pos.drop i2,
      m.new_pos.take i1 ++ m.new_pos.drop i2,
      m.nucleos.take i1 ++ m.nucleos.drop i2⟩,
    freeNucleos h ((m.nucleos.drop i1).take (i2 - i1)))

/-- `clear()` (lines 145-160): a no-op when `old_pos` is empty,
otherwise clears all four deques (without freeing the blocks — the C++
code does not `delete []` here either). -/
def clear (m : AllMutations) : AllMutations :=
  if m.old_pos.length = 0 then m else ⟨[], [], [], []⟩

end AllMutations

/-- The owned pointers of a `nucleos` deque (the non-null entries). -/
def ptrs (l : List (Option ℕ)) : List ℕ := l.filterMap id

/-- The implicit class invariant of `AllMutations`: the four parallel
deques have equal length, so `size()` and `empty()` — which consult only
`old_pos` — describe all four. -/
def parallelInv (m : AllMutations) : Prop :=
  m.size_modifier.length = m.old_pos.length ∧
  m.new_pos.length = m.old_pos.length ∧
  m.nucleos.length = m.old_pos.length

instance (m : AllMutations) : Decidable (parallelInv m) := by
  unfold parallelInv
  infer_instance

/-- A concrete two-block heap for witnesses. -/
def h0 : Heap :=
  ⟨2, fun p => if p = 0 then some ['A'] else if p = 1 then some ['C', 'G']
    else none⟩

/-- A concrete two-record mutation log for witnesses: a substitution
(`"A"`) and an insertion (`"CG"`). -/
def m0 : AllMutations := ⟨[0, 2], [1, 3], [1, 3], [some 0, some 1]⟩

/-- A concrete assignment destination whose single record owns no
block. -/
def d0 : AllMutations := ⟨[-1], [0], [0], [none]⟩

end Jackalope

namespace Jackalope

/- ======================================================================
   Helper lemmas
   ====================================================================== -/

lemma sum_map_div (l : List ℚ) (c : ℚ) :
    (l.map fun x => x / c).sum = l.sum / c := by
  induction l with
  | nil => simp
  | cons a t ih => simp [ih, add_div]

lemma sum_map_div_mul (l : List ℚ) (s c : ℚ) :
    (l.map fun x => x / s * c).sum = l.sum / s * c := by
  induction l with
  | nil => simp
  | cons a t ih =>
    simp only [List.map_cons, List.sum_cons, ih]
    ring

lemma sum_map_quarter (l : List ℚ) :
    (l.map fun x => x * (1 / 4)).sum = l.sum / 4 := by
  induction l with
  | nil => simp
  | cons a t ih =>
    simp only [List.map_cons, List.sum_cons, ih]
    ring

lemma fin4_mk_zero (h : 0 < 4) : (⟨0, h⟩ : Fin 4) = 0 := rfl

lemma fin4_mk_one (h : 1 < 4) : (⟨1, h⟩ : Fin 4) = 1 := rfl

lemma fin4_mk_two (h : 2 < 4) : (⟨2, h⟩ : Fin 4) = 2 := rfl

lemma fin4_mk_three (h : 3 < 4) : (⟨3, h⟩ : Fin 4) = 3 := rfl

lemma fin4_val_zero : ((0 : Fin 4)).val = 0 := rfl

lemma fin4_val_one : ((1 : Fin 4)).val = 1 := rfl

lemma fin4_val_two : ((2 : Fin 4)).val = 2 := rfl

lemma fin4_val_three : ((3 : Fin 4)).val = 3 := rfl

/-- Closed form of `q_tcag[b]` from `fill_probs_q_tcag`: the off-diagonal
row-sum of `Q` plus a quarter of the total indel weight. -/
lemma fillQtcag_eq (Q : Fin 4 → Fin 4 → ℚ) (piL insR delR : List ℚ) (b : Fin 4) :
    fillQtcag Q piL insR delR b
      = (Q b 0 + Q b 1 + Q b 2 + Q b 3 - Q b b) + (insR.sum + delR.sum) / 4 := by
  fin_cases b <;>
    · simp only [fin4_mk_zero, fin4_mk_one, fin4_mk_two, fin4_mk_three,
        fillQtcag, fillQc, fin4_val_zero, fin4_val_one, fin4_val_two,
        fin4_val_three, List.set, List.sum_append, sum_map_quarter,
        List.sum_cons, List.sum_nil]
      ring

/-- Closed form of the cached `rates[b]` of the `MutationSampler`
constructor: the negated diagonal entry of `Q`. -/
lemma ctorRates_eq (Q : Fin 4 → Fin 4 → ℚ) (xi psi : ℚ)
    (pis relIns relDel : List ℚ) (b : Fin 4) :
    (mutationSamplerCtor Q xi psi pis relIns relDel).rates b = - Q b b := by
  fin_cases b <;> rfl

/- ======================================================================
   C1 — cached per-base total mutation rate
   ====================================================================== -/

/-- C1 counterexample.  `Qsym` satisfies the claim's hypothesis (each
diagonal entry is the negative row-sum of the off-diagonals), `ξ = 1 ≥ 0`,
`ψ = 1 > 0`, yet the rate the `MutationSampler` constructor caches for
base `T` is `-Q[0,0] = 3`, not `-Q[0,0] + ξ = 4` as the claim states. -/
theorem c1_counterexample :
    (mutationSamplerCtor Qsym 1 1 [1/4, 1/4, 1/4, 1/4] [1] [1]).rates 0
      ≠ - Qsym 0 0 + 1 := by
  rw [ctorRates_eq]
  norm_num [Qsym]

/-- C1 (amended): the `MutationSampler` constructor caches
`rates[b] = -Q[b,b]` — the indel rate `ξ` is *not* added — and the
`fill_probs_q_tcag` path caches `q_tcag[b]` equal to the off-diagonal
row-sum of `Q` plus one quarter of the total indel weight it is given. -/
theorem c1_rates_amended (Q : Fin 4 → Fin 4 → ℚ) (xi psi : ℚ)
    (pis relIns relDel piL insR delR : List ℚ) (b : Fin 4) :
    (mutationSamplerCtor Q xi psi pis relIns relDel).rates b = - Q b b ∧
    fillQtcag Q piL insR delR b
      = (Q b 0 + Q b 1 + Q b 2 + Q b 3 - Q b b) + (insR.sum + delR.sum) / 4 :=
  ⟨ctorRates_eq Q xi psi pis relIns relDel b, fillQtcag_eq Q piL insR delR b⟩

/- ======================================================================
   C2 — the two event-probability constructions
   ====================================================================== -/

/-- C2 counterexample.  `Qasym` has zero row sums (a valid rate matrix in
the row-orientation convention), `ξ = 0 ≥ 0`, `ψ = 1 > 0`, relative indel
rates `[1]` with positive sums; yet because the constructor reads the
*column* of `Q` and `fill_probs_q_tcag` reads the *row*, the base-`T`
event-probability vectors differ (`[0, 2/3, 1/3, 1/3, 0, 0]` versus
`[0, 1/3, 1/3, 1/3, 0, 0]`). -/
theorem c2_counterexample :
    (mutationSamplerCtor Qasym 0 1 [1/4, 1/4, 1/4, 1/4] [1] [1]).probs 0
      ≠ fillProbs Qasym [1/4, 1/4, 1/4, 1/4]
          (scaledInsRates 0 1 [1]) (scaledDelRates 0 1 [1]) 0 := by
  norm_num [mutationSamplerCtor, fillProbs, fillQc, fillQtcag,
    scaledInsRates, scaledDelRates, Qasym, fin4_val_zero, fin4_val_one,
    fin4_val_two, fin4_val_three, List.set]

/-- C2 (amended): the two constructions agree — same event-probability
vector and same per-base total — when additionally `Q` is symmetric and
`ξ = 0` (the `fill_probs_q_tcag` path being fed the constructor's scaled
indel-rate vectors).  In general they differ: the constructor uses
column `b` of `Q` and divides by `-Q[b,b]`, while `fill_probs_q_tcag`
uses row `b` and divides by the vector total. -/
theorem c2_agree_of_symm_xi_zero (Q : Fin 4 → Fin 4 → ℚ) (psi : ℚ)
    (pis relIns relDel piL : List ℚ)
    (hsym : ∀ i j, Q i j = Q j i)
    (hdiag : ∀ b : Fin 4, Q b 0 + Q b 1 + Q b 2 + Q b 3 = 0) (b : Fin 4) :
    (mutationSamplerCtor Q 0 psi pis relIns relDel).probs b
      = fillProbs Q piL (scaledInsRates 0 psi relIns)
          (scaledDelRates 0 psi relDel) b ∧
    (mutationSamplerCtor Q 0 psi pis relIns relDel).rates b
      = fillQtcag Q piL (scaledInsRates 0 psi relIns)
          (scaledDelRates 0 psi relDel) b := by
  have hzi : (scaledInsRates 0 psi relIns).sum = 0 := by
    simp [scaledInsRates, sum_map_div_mul]
  have hzd : (scaledDelRates 0 psi relDel).sum = 0 := by
    simp [scaledDelRates, sum_map_div_mul]
  have htot : fillQtcag Q piL (scaledInsRates 0 psi relIns)
      (scaledDelRates 0 psi relDel) b = - Q b b := by
    rw [fillQtcag_eq, hzi, hzd]
    have := hdiag b
    linarith
  constructor
  · simp only [mutationSamplerCtor, fillProbs]
    simp only [htot]
    have hq : -([Q 0 b, Q 1 b, Q 2 b, Q 3 b].getD b.val 0) = - Q b b := by
      fin_cases b <;> rfl
    simp only [hq]
    simp only [scaledInsRates, scaledDelRates, zero_div, mul_zero,
      List.map_map, Function.comp_def, zero_mul, List.map_const']
    fin_cases b <;>
      · simp only [fin4_mk_zero, fin4_mk_one, fin4_mk_two, fin4_mk_three,
          fin4_val_zero, fin4_val_one, fin4_val_two, fin4_val_three,
          fillQc, List.set, List.map_append, List.map_cons, List.map_nil,
          List.map_replicate, zero_div]
        simp only [zero_mul, zero_div]
        simp [hsym]
  · rw [ctorRates_eq, htot]

/-- C2 witness: the amended agreement theorem applied to the concrete
symmetric zero-row-sum matrix `Qsym` with `ψ = 1` and unit relative
indel rates. -/
theorem c2_witness :
    (mutationSamplerCtor Qsym 0 1 [] [1] [1]).probs 0
      = fillProbs Qsym [] (scaledInsRates 0 1 [1]) (scaledDelRates 0 1 [1]) 0 ∧
    (mutationSamplerCtor Qsym 0 1 [] [1] [1]).rates 0
      = fillQtcag Qsym [] (scaledInsRates 0 1 [1]) (scaledDelRates 0 1 [1]) 0 :=
  c2_agree_of_symm_xi_zero Qsym 1 [] [1] [1] []
    (by intro i j; fin_cases i <;> fin_cases j <;> rfl)
    (by intro b; fin_cases b <;> norm_num [Qsym, fin4_val_zero, fin4_val_one,
      fin4_val_two, fin4_val_three]) 0

/- ======================================================================
   C3 — the event-probability vectors sum to one
   ====================================================================== -/

/-- Sum of the 4-element column prefix with the diagonal slot zeroed. -/
lemma colset_sum (Q : Fin 4 → Fin 4 → ℚ) (b : Fin 4) :
    (([Q 0 b, Q 1 b, Q 2 b, Q 3 b]).set b.val 0).sum
      = Q 0 b + Q 1 b + Q 2 b + Q 3 b - Q b b := by
  fin_cases b <;>
    · simp only [fin4_mk_zero, fin4_mk_one, fin4_mk_two, fin4_mk_three,
        fin4_val_zero, fin4_val_one, fin4_val_two, fin4_val_three,
        List.set, List.sum_cons, List.sum_nil]
      ring

/-- The diagonal entry read by the constructor (`qc[i]` before zeroing). -/
lemma ctor_getD_eq (Q : Fin 4 → Fin 4 → ℚ) (b : Fin 4) :
    ([Q 0 b, Q 1 b, Q 2 b, Q 3 b]).getD b.val 0 = Q b b := by
  fin_cases b <;> rfl

/-- C3 counterexample.  With the valid input `Qsym` (non-negative
off-diagonals, zero row sums), `ξ = 1 ≥ 0`, `ψ = 1 > 0`, relative indel
rates `[1]` with positive sums, the base-`T` event-probability vector
built by the `MutationSampler` constructor sums to `4/3`, not `1`: the
constructor divides by `-Q[b,b]` rather than by the vector total. -/
theorem c3_counterexample :
    ((mutationSamplerCtor Qsym 1 1 [1/4, 1/4, 1/4, 1/4] [1] [1]).probs 0).sum
      ≠ 1 := by
  norm_num [mutationSamplerCtor, scaledInsRates, scaledDelRates, Qsym,
    fin4_val_zero, fin4_val_one, fin4_val_two, fin4_val_three, List.set]

/-- C3 (amended): the `fill_probs_q_tcag` vectors sum to exactly `1`
whenever the pre-normalisation total is nonzero (it divides by that
total); the `MutationSampler`-constructor vectors instead sum to
`((column-b off-diagonal sum) + ξ) / (-Q[b,b])`, which equals `1` only
when `-Q[b,b]` already includes the indel rate `ξ`. -/
theorem c3_sum_amended (Q : Fin 4 → Fin 4 → ℚ) (xi psi : ℚ)
    (pis relIns relDel piL insR delR : List ℚ) (b : Fin 4)
    (h1 : fillQtcag Q piL insR delR b ≠ 0)
    (h2 : 0 < psi) (h3 : relIns.sum ≠ 0) (h4 : relDel.sum ≠ 0) :
    (fillProbs Q piL insR delR b).sum = 1 ∧
    ((mutationSamplerCtor Q xi psi pis relIns relDel).probs b).sum
      = ((Q 0 b + Q 1 b + Q 2 b + Q 3 b - Q b b) + xi) / (- Q b b) := by
  constructor
  · simp only [fillProbs]
    rw [sum_map_div]
    exact div_self h1
  · have hins : (scaledInsRates xi psi relIns).sum = xi / (1 + 1 / psi) := by
      simp only [scaledInsRates, sum_map_div_mul, div_self h3, one_mul]
    have hdel : (scaledDelRates xi psi relDel).sum = xi / (1 + psi) := by
      simp only [scaledDelRates, sum_map_div_mul, div_self h4, one_mul]
    have hp : psi ≠ 0 := ne_of_gt h2
    have hp1 : (1 : ℚ) + 1 / psi ≠ 0 := by
      have : (0 : ℚ) < 1 / psi := by positivity
      linarith
    have hp2 : (1 : ℚ) + psi ≠ 0 := by linarith
    have hxi : xi / (1 + 1 / psi) + xi / (1 + psi) = xi := by
      field_simp
      ring
    simp only [mutationSamplerCtor]
    rw [sum_map_div, List.sum_append, List.sum_append, colset_sum, hins,
      hdel, ctor_getD_eq, add_assoc, hxi]

/-- C3 witness: the amended theorem applied at `Qsym`, `ξ = 1`, `ψ = 1`,
relative rates `[2]` and `[3]`, and `fill_probs_q_tcag` inputs `[1]`,
`[1]`; all four hypotheses are discharged numerically. -/
theorem c3_witness :
    (fillProbs Qsym [] [1] [1] 0).sum = 1 ∧
    ((mutationSamplerCtor Qsym 1 1 [] [2] [3]).probs 0).sum
      = ((Qsym 0 0 + Qsym 1 0 + Qsym 2 0 + Qsym 3 0 - Qsym 0 0) + 1)
          / (- Qsym 0 0) :=
  c3_sum_amended Qsym 1 1 [] [2] [3] [] [1] [1] 0
    (by norm_num [fillQtcag, fillQc, Qsym, fin4_val_zero, fin4_val_one,
      fin4_val_two, fin4_val_three, List.set])
    (by norm_num) (by norm_num) (by norm_num)

/- ======================================================================
   C8 — the event-length vector
   ====================================================================== -/

lemma getD_set_self (l : List ℤ) (m : ℕ) (a : ℤ) (h : m < l.length) :
    (l.set m a).getD m 0 = a := by
  rw [List.getD_eq_getD_get?, List.get?_set_eq_of_lt a h]
  rfl

lemma getD_set_other (l : List ℤ) (m n : ℕ) (a : ℤ) (h : m ≠ n) :
    (l.set m a).getD n 0 = l.getD n 0 := by
  rw [List.getD_eq_getD_get?, List.get?_set_ne a l h, ← List.getD_eq_getD_get?]

lemma list_eq_of_getD (l₁ l₂ : List ℤ) (h : l₁.length = l₂.length)
    (h2 : ∀ n, l₁.getD n 0 = l₂.getD n 0) : l₁ = l₂ :=
  List.ext_get? fun n => by
    by_cases hn : n < l₁.length
    · rw [List.get?_eq_get hn, List.get?_eq_get (h ▸ hn)]
      have h3 := h2 n
      rw [List.getD_eq_get _ _ hn, List.getD_eq_get _ _ (h ▸ hn)] at h3
      exact congrArg some h3
    · rw [List.get?_eq_none.mpr (Nat.le_of_not_lt hn),
        List.get?_eq_none.mpr (h ▸ Nat.le_of_not_lt hn)]

lemma foldl_set_length (g : ℕ → ℤ) (off n : ℕ) (v : List ℤ) :
    ((List.range n).foldl (fun w i => w.set (i + off) (g i)) v).length
      = v.length := by
  induction n with
  | zero => simp
  | succ k ih =>
    rw [List.range_succ, List.foldl_append]
    simpa using ih

lemma foldl_set_getD (g : ℕ → ℤ) (off n : ℕ) (v : List ℤ)
    (hlen : off + n ≤ v.length) (j : ℕ) :
    ((List.range n).foldl (fun w i => w.set (i + off) (g i)) v).getD j 0
      = if off ≤ j ∧ j < off + n then g (j - off) else v.getD j 0 := by
  induction n with
  | zero =>
    simp only [List.range_zero, List.foldl_nil]
    rw [if_neg (by omega)]
  | succ k ih =>
    rw [List.range_succ, List.foldl_append]
    simp only [List.foldl_cons, List.foldl_nil]
    by_cases hj : j = k + off
    · subst hj
      rw [getD_set_self _ _ _ (by rw [foldl_set_length]; omega)]
      rw [if_pos (by omega)]
      congr 1
      omega
    · rw [getD_set_other _ _ _ _ (fun hE => hj hE.symm)]
      rw [ih (by omega)]
      by_cases hc : off ≤ j ∧ j < off + k
      · rw [if_pos hc, if_pos (by omega)]
      · rw [if_neg hc, if_neg (by omega)]

lemma getD_replicate_zero (n j : ℕ) :
    (List.replicate n (0 : ℤ)).getD j 0 = 0 := by
  by_cases h : j < n
  · rw [List.getD_eq_getElem _ _ (by simpa using h)]
    simp
  · rw [List.getD_eq_default _ _ (by simpa using Nat.le_of_not_lt h)]

lemma getD_map_range (f : ℕ → ℤ) (n j : ℕ) (h : j < n) :
    ((List.range n).map f).getD j 0 = f j := by
  rw [List.getD_eq_getElem _ _ (by simpa using h)]
  simp

/-- Closed form of `fill_mut_lengths` by index. -/
lemma fill_mut_lengths_getD (insR delR : List ℚ) (j : ℕ) :
    (fill_mut_lengths insR delR).getD j 0
      = if j < 4 then 0
        else if j < 4 + insR.length then ((j : ℤ) - 4) + 1
        else if j < 4 + insR.length + delR.length
          then -(((j : ℤ) - 4 - insR.length) + 1) else 0 := by
  unfold fill_mut_lengths
  by_cases h1 : j < 4
  · rw [List.getD_append _ _ _ _ (by simp; omega)]
    rw [List.getD_append _ _ _ _ (by simp; omega)]
    rw [getD_replicate_zero, if_pos h1]
  · by_cases h2 : j < 4 + insR.length
    · rw [List.getD_append _ _ _ _ (by simp; omega)]
      rw [List.getD_append_right _ _ _ _ (by simp; omega)]
      simp only [List.length_replicate]
      rw [getD_map_range _ _ _ (by omega)]
      rw [if_neg h1, if_pos h2]
      have hc : ((j - 4 : ℕ) : ℤ) = (j : ℤ) - 4 := by omega
      rw [hc]
    · rw [List.getD_append_right _ _ _ _ (by simp; omega)]
      simp only [List.length_append, List.length_replicate, List.length_map,
        List.length_range]
      by_cases h3 : j < 4 + insR.length + delR.length
      · rw [getD_map_range _ _ _ (by omega)]
        rw [if_neg h1, if_neg h2, if_pos h3]
        have hc : ((j - (4 + insR.length) : ℕ) : ℤ)
            = (j : ℤ) - 4 - insR.length := by omega
        rw [hc]
      · rw [List.getD_eq_default _ _ (by simp; omega)]
        rw [if_neg h1, if_neg h2, if_neg h3]

/-- The two `event_lengths` constructions agree. -/
lemma event_lengths_eq (insR delR : List ℚ) :
    fill_mut_lengths insR delR = ctorEventLengths insR delR := by
  have hlen1 : (fill_mut_lengths insR delR).length
      = 4 + insR.length + delR.length := by
    simp [fill_mut_lengths]
    omega
  have hlen2 : (ctorEventLengths insR delR).length
      = 4 + insR.length + delR.length := by
    simp only [ctorEventLengths, Nat.add_assoc]
    rw [foldl_set_length, foldl_set_length]
    simp only [List.length_replicate]
    try omega
  refine list_eq_of_getD _ _ (by rw [hlen1, hlen2]) ?_
  intro j
  simp only [ctorEventLengths, Nat.add_assoc]
  rw [foldl_set_getD _ _ _ _
    (by rw [foldl_set_length]; simp only [List.length_replicate]; omega)]
  rw [foldl_set_getD _ _ _ _
    (by simp only [List.length_replicate]; omega)]
  rw [getD_replicate_zero, fill_mut_lengths_getD]
  split_ifs <;> omega

/-- C8 (confirmed): both code paths build the same event-length vector;
it has length `4+I+D`, holds `0` in the four substitution slots, `+k` in
the slot for insertion length `k` (`1 ≤ k ≤ I`), and `-k` in the slot
for deletion length `k` (`1 ≤ k ≤ D`). -/
theorem c8_event_lengths (insR delR : List ℚ) :
    fill_mut_lengths insR delR = ctorEventLengths insR delR ∧
    (fill_mut_lengths insR delR).length = 4 + insR.length + delR.length ∧
    (∀ j, j < 4 → (fill_mut_lengths insR delR).getD j 0 = 0) ∧
    (∀ k, 1 ≤ k → k ≤ insR.length →
      (fill_mut_lengths insR delR).getD (4 + k - 1) 0 = (k : ℤ)) ∧
    (∀ k, 1 ≤ k → k ≤ delR.length →
      (fill_mut_lengths insR delR).getD (4 + insR.length + k - 1) 0
        = -(k : ℤ)) := by
  refine ⟨event_lengths_eq insR delR, ?_, ?_, ?_, ?_⟩
  · simp [fill_mut_lengths]
    omega
  · intro j hj
    rw [fill_mut_lengths_getD, if_pos hj]
  · intro k hk1 hk2
    rw [fill_mut_lengths_getD]
    split_ifs <;> omega
  · intro k hk1 hk2
    rw [fill_mut_lengths_getD]
    split_ifs <;> omega

/-- C8 witness: the event-length theorem at one insertion length and two
deletion lengths; the vector is `[0,0,0,0, 1, -1,-2]`. -/
theorem c8_witness :
    fill_mut_lengths [(1 : ℚ)] [(1 : ℚ), 1]
      = ctorEventLengths [(1 : ℚ)] [(1 : ℚ), 1] ∧
    (fill_mut_lengths [(1 : ℚ)] [(1 : ℚ), 1]).getD 4 0 = 1 ∧
    (fill_mut_lengths [(1 : ℚ)] [(1 : ℚ), 1]).getD 6 0 = -2 := by
  have h := c8_event_lengths [(1 : ℚ)] [(1 : ℚ), 1]
  refine ⟨h.1, ?_, ?_⟩
  · have := h.2.2.2.1 1 (by norm_num) (by norm_num)
    simpa using this
  · have := h.2.2.2.2 2 (by norm_num) (by norm_num)
    simpa using this

/- ======================================================================
   C4, C5 — weighted_reservoir_
   ====================================================================== -/

lemma innerLoop_ge (rates : ℕ → ℚ) (e : ℕ) (X : ℚ) :
    ∀ fuel i w0 w1, i ≤ (innerLoop rates e X fuel i w0 w1).1 := by
  intro fuel
  induction fuel with
  | zero => intro i w0 w1; simp [innerLoop]
  | succ f ih =>
    intro i w0 w1
    simp only [innerLoop]
    by_cases h : X > w1 ∧ i < e
    · rw [if_pos h]
      exact (Nat.le_succ i).trans (ih (i + 1) (w0 + rates i) (w1 + rates (i + 1)))
    · rw [if_neg h]

lemma innerLoop_le (rates : ℕ → ℚ) (e : ℕ) (X : ℚ) :
    ∀ fuel i w0 w1, i ≤ e → (innerLoop rates e X fuel i w0 w1).1 ≤ e := by
  intro fuel
  induction fuel with
  | zero => intro i w0 w1 h; simpa [innerLoop] using h
  | succ f ih =>
    intro i w0 w1 h
    simp only [innerLoop]
    by_cases hc : X > w1 ∧ i < e
    · rw [if_pos hc]
      exact ih (i + 1) _ _ hc.2
    · rw [if_neg hc]
      exact h

lemma innerLoop_congr (rates rates2 : ℕ → ℚ) (s e : ℕ) (X : ℚ)
    (hag : ∀ j, s ≤ j → j ≤ e → rates j = rates2 j) :
    ∀ fuel i w0 w1, s ≤ i → i ≤ e →
      innerLoop rates e X fuel i w0 w1 = innerLoop rates2 e X fuel i w0 w1 := by
  intro fuel
  induction fuel with
  | zero => intro i w0 w1 h1 h2; simp [innerLoop]
  | succ f ih =>
    intro i w0 w1 h1 h2
    simp only [innerLoop]
    by_cases hc : X > w1 ∧ i < e
    · rw [if_pos hc, if_pos hc]
      rw [hag i h1 h2, hag (i + 1) (by omega) (by omega)]
      exact ih (i + 1) _ _ (by omega) (by omega)
    · rw [if_neg hc, if_neg hc]

/-- Branch analysis of one outer-loop step: a `done` result is the kept
position (within bounds); a `next` state keeps the invariant, never
moves the cursor backward, and — when it moves the cursor at all —
adopts exactly the new cursor position, strictly beyond the old cursor
and at most `e`. -/
lemma outerStep_cases (logf : ℚ → ℚ) (powf : ℚ → ℚ → ℚ)
    (unif : ℚ → ℚ → ℚ → ℚ) (rates stream : ℕ → ℚ) (s e : ℕ)
    (st : WRState) (h1 : s ≤ st.largest_pos) (h2 : st.largest_pos ≤ e)
    (h3 : s ≤ st.c) :
    (∀ res, outerStep logf powf unif rates stream e st = .done res →
      s ≤ res ∧ res ≤ e) ∧
    (∀ st2, outerStep logf powf unif rates stream e st = .next st2 →
      s ≤ st2.largest_pos ∧ st2.largest_pos ≤ e ∧ s ≤ st2.c ∧
      st.c ≤ st2.c ∧ st2.c ≤ max st.c e ∧ st.k < st2.k ∧
      (st2.c ≠ st.c → st.c < st2.c ∧ st2.largest_pos = st2.c ∧ st2.c ≤ e)) := by
  by_cases hce : st.c < e
  · have hi1 : st.c + 1 ≤ (innerLoop rates e
        (logf (stream st.k) / logf st.largest_key) (e - (st.c + 1))
        (st.c + 1) (rates st.c) (rates st.c + rates (st.c + 1))).1 :=
      innerLoop_ge _ _ _ _ _ _ _
    have hi2 : (innerLoop rates e
        (logf (stream st.k) / logf st.largest_key) (e - (st.c + 1))
        (st.c + 1) (rates st.c) (rates st.c + rates (st.c + 1))).1 ≤ e :=
      innerLoop_le _ _ _ _ _ _ _ (by omega)
    constructor
    · intro res h
      simp only [outerStep, if_pos hce] at h
      split_ifs at h with hb1 hb2
      cases h
      exact ⟨h1, h2⟩
    · intro st2 h
      simp only [outerStep, if_pos hce] at h
      split_ifs at h with hb1 hb2
      · cases h
        exact ⟨h1, h2, h3, le_refl _, le_max_left _ _, Nat.lt_succ_self _,
          fun hne => absurd rfl hne⟩
      · cases h
        exact ⟨h3.trans ((Nat.le_succ _).trans hi1), hi2,
          h3.trans ((Nat.le_succ _).trans hi1),
          (Nat.le_succ _).trans hi1, le_max_of_le_right hi2,
          Nat.lt_trans (Nat.lt_succ_self _) (Nat.lt_succ_self _),
          fun hne => ⟨Nat.lt_of_lt_of_le (Nat.lt_succ_self _) hi1, rfl, hi2⟩⟩
  · constructor
    · intro res h
      simp only [outerStep, if_neg hce] at h
      cases h
      exact ⟨h1, h2⟩
    · intro st2 h
      simp only [outerStep, if_neg hce] at h
      cases h

lemma outerLoop_bounds (logf : ℚ → ℚ) (powf : ℚ → ℚ → ℚ)
    (unif : ℚ → ℚ → ℚ → ℚ) (rates stream : ℕ → ℚ) (s e : ℕ) :
    ∀ fuel st, s ≤ st.largest_pos → st.largest_pos ≤ e → s ≤ st.c →
      ∀ i, outerLoop logf powf unif rates stream e fuel st = some i →
        s ≤ i ∧ i ≤ e := by
  intro fuel
  induction fuel with
  | zero => intro st h1 h2 h3 i h; cases h
  | succ f ih =>
    intro st h1 h2 h3 i h
    rw [outerLoop] at h
    cases hstep : outerStep logf powf unif rates stream e st with
    | done res =>
      rw [hstep] at h
      cases h
      exact (outerStep_cases logf powf unif rates stream s e st h1 h2 h3).1
        i hstep
    | next st2 =>
      rw [hstep] at h
      have hst2 := (outerStep_cases logf powf unif rates stream s e st
        h1 h2 h3).2 st2 hstep
      exact ih st2 hst2.1 hst2.2.1 hst2.2.2.1 i h

lemma outerStep_congr (logf : ℚ → ℚ) (powf : ℚ → ℚ → ℚ)
    (unif : ℚ → ℚ → ℚ → ℚ) (rates rates2 stream : ℕ → ℚ) (s e : ℕ)
    (hag : ∀ j, s ≤ j → j ≤ e → rates j = rates2 j)
    (st : WRState) (h3 : s ≤ st.c) :
    outerStep logf powf unif rates stream e st
      = outerStep logf powf unif rates2 stream e st := by
  by_cases hce : st.c < e
  · have hinner : innerLoop rates e
        (logf (stream st.k) / logf st.largest_key) (e - (st.c + 1))
        (st.c + 1) (rates st.c) (rates st.c + rates (st.c + 1))
        = innerLoop rates2 e
        (logf (stream st.k) / logf st.largest_key) (e - (st.c + 1))
        (st.c + 1) (rates2 st.c) (rates2 st.c + rates2 (st.c + 1)) := by
      rw [hag st.c h3 (by omega), hag (st.c + 1) (by omega) (by omega)]
      exact innerLoop_congr rates rates2 s e _ hag _ _ _ _ (by omega) (by omega)
    have hi1 : st.c + 1 ≤ (innerLoop rates e
        (logf (stream st.k) / logf st.largest_key) (e - (st.c + 1))
        (st.c + 1) (rates st.c) (rates st.c + rates (st.c + 1))).1 :=
      innerLoop_ge _ _ _ _ _ _ _
    have hi2 : (innerLoop rates e
        (logf (stream st.k) / logf st.largest_key) (e - (st.c + 1))
        (st.c + 1) (rates st.c) (rates st.c + rates (st.c + 1))).1 ≤ e :=
      innerLoop_le _ _ _ _ _ _ _ (by omega)
    simp only [outerStep, if_pos hce]
    rw [← hinner]
    rw [hag _ (by omega) (by omega : (innerLoop rates e
        (logf (stream st.k) / logf st.largest_key) (e - (st.c + 1))
        (st.c + 1) (rates st.c) (rates st.c + rates (st.c + 1))).1 ≤ e)]
  · simp only [outerStep, if_neg hce]

lemma outerLoop_congr (logf : ℚ → ℚ) (powf : ℚ → ℚ → ℚ)
    (unif : ℚ → ℚ → ℚ → ℚ) (rates rates2 stream : ℕ → ℚ) (s e : ℕ)
    (hag : ∀ j, s ≤ j → j ≤ e → rates j = rates2 j) :
    ∀ fuel st, s ≤ st.largest_pos → st.largest_pos ≤ e → s ≤ st.c →
      outerLoop logf powf unif rates stream e fuel st
        = outerLoop logf powf unif rates2 stream e fuel st := by
  intro fuel
  induction fuel with
  | zero => intro st h1 h2 h3; rfl
  | succ f ih =>
    intro st h1 h2 h3
    rw [outerLoop, outerLoop,
      ← outerStep_congr logf powf unif rates rates2 stream s e hag st h3]
    cases hstep : outerStep logf powf unif rates stream e st with
    | done res => rfl
    | next st2 =>
      have hst2 := (outerStep_cases logf powf unif rates stream s e st
        h1 h2 h3).2 st2 hstep
      exact ih st2 hst2.1 hst2.2.1 hst2.2.2.1

/-- C4 (confirmed): for `start ≤ end` and strictly positive weights on
the inclusive range, every value `weighted_reservoir_` returns lies in
`[start, end]`, and the result depends on the rate stream only through
its values on `[start, end]` — i.e. the rate stream is never evaluated
outside the inclusive range.  (The RNG stream, `log`, `pow`, and
`runif_ab` are universally quantified.) -/
theorem c4_reservoir_range (logf : ℚ → ℚ) (powf : ℚ → ℚ → ℚ)
    (unif : ℚ → ℚ → ℚ → ℚ) (start e : ℕ) (rates stream : ℕ → ℚ)
    (hse : start ≤ e)
    (hpos : ∀ j, start ≤ j → j ≤ e → 0 < rates j) :
    (∀ fuel i,
      weighted_reservoir_ logf powf unif start e rates stream fuel = some i →
        start ≤ i ∧ i ≤ e) ∧
    (∀ rates2 : ℕ → ℚ, (∀ j, start ≤ j → j ≤ e → rates j = rates2 j) →
      ∀ fuel, weighted_reservoir_ logf powf unif start e rates stream fuel
        = weighted_reservoir_ logf powf unif start e rates2 stream fuel) := by
  constructor
  · intro fuel i h
    exact outerLoop_bounds logf powf unif rates stream start e fuel _
      (le_refl _) hse (le_refl _) i h
  · intro rates2 hag fuel
    unfold weighted_reservoir_
    rw [hag start (le_refl _) hse]
    exact outerLoop_congr logf powf unif rates rates2 stream start e hag
      fuel _ (le_refl _) hse (le_refl _)

/-- C4 witness: with `start = 0`, `end = 1`, constant weight `1/4` and a
constant draw stream, the first key exceeds the remaining weight, the
loop breaks, and position `0` is returned: its bounds follow from the
theorem, as does invariance under replacing the rate stream by one that
agrees on `[0, 1]`. -/
theorem c4_witness :
    ((0 : ℕ) ≤ 0 ∧ 0 ≤ 1) ∧
    (weighted_reservoir_ (fun _ => (-1 : ℚ)) (fun a _ => a)
        (fun r a b => a + r * (b - a)) 0 1 (fun _ => (1 / 4 : ℚ))
        (fun _ => (1 / 2 : ℚ)) 1
      = weighted_reservoir_ (fun _ => (-1 : ℚ)) (fun a _ => a)
        (fun r a b => a + r * (b - a)) 0 1
        (fun j => if j ≤ 1 then (1 / 4 : ℚ) else 7)
        (fun _ => (1 / 2 : ℚ)) 1) := by
  have h := c4_reservoir_range (fun _ => (-1 : ℚ)) (fun a _ => a)
    (fun r a b => a + r * (b - a)) 0 1 (fun _ => (1 / 4 : ℚ))
    (fun _ => (1 / 2 : ℚ)) (by norm_num) (fun j _ _ => by norm_num)
  refine ⟨h.1 1 0 ?_, h.2 (fun j => if j ≤ 1 then (1 / 4 : ℚ) else 7)
    (fun j hj1 hj2 => by simp [hj2]) 1⟩
  norm_num [weighted_reservoir_, outerLoop, outerStep, innerLoop]

/-- C5 counterexample.  A valid input on which `weighted_reservoir_`
never terminates, refuting "for every RNG engine state the function
terminates": `start = 0 ≤ end = 2`, all weights `1` (strictly positive),
and an engine whose `runif_01` draws are constantly `1/2`.  Then
`largest_key = pow(1/2, 1/1) = 1/2` and every iteration computes
`X = log(1/2)/log(1/2) = 1 ≤ wt_sum0 = 1`, so the `continue` branch
re-draws forever without advancing the cursor.  The interpretations
supplied for `pow` and `log` agree with the real functions at every
point at which the run evaluates them (`pow(1/2, 1) = 1/2`, and
`log(1/2)/log(1/2) = 1` for any nonzero value of `log(1/2)`), so the
C++ code diverges on this engine stream as well.  Formally: the run
returns `none` for every amount of fuel. -/
theorem c5_counterexample : reservoirDivergesAtHalfStream := by
  unfold reservoirDivergesAtHalfStream
  have key : ∀ fuel k, outerLoop (fun _ => (-1 : ℚ)) (fun a _ => a)
      (fun r a b => a + r * (b - a)) (fun _ => (1 : ℚ))
      (fun _ => (1 / 2 : ℚ)) 2 fuel ⟨1 / 2, 0, 0, k⟩ = none := by
    intro fuel
    induction fuel with
    | zero => intro k; rfl
    | succ f ih =>
      intro k
      rw [outerLoop]
      have hstep : outerStep (fun _ => (-1 : ℚ)) (fun a _ => a)
          (fun r a b => a + r * (b - a)) (fun _ => (1 : ℚ))
          (fun _ => (1 / 2 : ℚ)) 2 ⟨1 / 2, 0, 0, k⟩
          = .next ⟨1 / 2, 0, 0, k + 1⟩ := by
        norm_num [outerStep, innerLoop]
      rw [hstep]
      exact ih (k + 1)
  intro fuel
  exact key fuel 1

/-- C5 (amended): the outer cursor never moves backward, and whenever a
step moves it, the step adopts exactly the new cursor position, which is
strictly beyond the old one and at most `end` — so every position is
adopted at most once and at most `end − start` adoptions occur (a
terminating run makes a single pass).  Termination itself does **not**
hold for every engine state: a step may also re-draw with the cursor
unchanged (only the stream cursor advances), and an engine stream that
perpetually takes that branch makes the loop run forever. -/
theorem c5_single_pass_amended (logf : ℚ → ℚ) (powf : ℚ → ℚ → ℚ)
    (unif : ℚ → ℚ → ℚ → ℚ) (rates stream : ℕ → ℚ) (start e : ℕ)
    (hse : start ≤ e)
    (hpos : ∀ j, start ≤ j → j ≤ e → 0 < rates j)
    (st : WRState) (h3 : start ≤ st.c) (h1 : start ≤ st.largest_pos)
    (h2 : st.largest_pos ≤ e) :
    ∀ st2, outerStep logf powf unif rates stream e st = .next st2 →
      st.c ≤ st2.c ∧ st2.c ≤ max st.c e ∧ st.k < st2.k ∧
      (st2.c ≠ st.c → st.c < st2.c ∧ st2.largest_pos = st2.c ∧ st2.c ≤ e) := by
  intro st2 h
  have hst2 := (outerStep_cases logf powf unif rates stream start e st
    h1 h2 h3).2 st2 h
  exact ⟨hst2.2.2.2.1, hst2.2.2.2.2.1, hst2.2.2.2.2.2.1, hst2.2.2.2.2.2.2⟩

/-- C5 witness: the amended step theorem applied to the concrete
re-draw state of the counterexample run (`c = 0`, `k = 1`): the step
yields `c = 0, k = 2`, cursor unchanged, stream cursor advanced. -/
theorem c5_witness :
    (0 : ℕ) ≤ 0 ∧ (0 : ℕ) ≤ max 0 2 ∧ (1 : ℕ) < 2 ∧
      ((0 : ℕ) ≠ 0 → (0 : ℕ) < 0 ∧ (0 : ℕ) = 0 ∧ (0 : ℕ) ≤ 2) := by
  have h := c5_single_pass_amended (fun _ => (-1 : ℚ)) (fun a _ => a)
    (fun r a b => a + r * (b - a)) (fun _ => (1 : ℚ))
    (fun _ => (1 / 2 : ℚ)) 0 2 (by norm_num) (fun j _ _ => by norm_num)
    ⟨1 / 2, 0, 0, 1⟩ (by norm_num) (by norm_num) (by norm_num)
    ⟨1 / 2, 0, 0, 2⟩ (by norm_num [outerStep, innerLoop])
  exact h

/- ======================================================================
   C6, C7 — random-sequence lengths
   ====================================================================== -/

/-- C6 counterexample.  With `len_sd = 1 > 0` and a gamma-draw stream
whose every draw is non-finite, generating one sequence consumes exactly
one gamma draw — no retry ever happens — and still produces a sequence
(of length `1`, the clamp of the cast of the non-finite draw): the
non-finite draw is used silently, and no failure of any kind occurs
(`create_sequences_` has no error path at all).  This refutes both the
retry-up-to-16-times behaviour and "never silently uses a non-finite
draw". -/
theorem c6_counterexample :
    (createSeqLens 5 1 (fun _ => Dbl.nonfin) 1).2 = 1 ∧
    (createSeqLens 5 1 (fun _ => Dbl.nonfin) 1).1 = [1] := by
  constructor <;> norm_num [createSeqLens, seqLen, castU32]

/-- C6 (amended): when `len_sd > 0` the generator performs no
finiteness check: each sequence consumes exactly one gamma draw, whose
truncated value, clamped to at least `1`, becomes the sequence length;
there is no retry and no failure path. -/
theorem c6_no_retry_amended (lenMean lenSd : ℚ) (draws : ℕ → Dbl)
    (n : ℕ) (h : 0 < lenSd) :
    (createSeqLens lenMean lenSd draws n).2 = n ∧
    (createSeqLens lenMean lenSd draws n).1.length = n ∧
    (∀ i, i < n → (createSeqLens lenMean lenSd draws n).1.getD i 0
      = max (castU32 (draws i)) 1) := by
  induction n with
  | zero => exact ⟨rfl, rfl, fun i hi => absurd hi (by omega)⟩
  | succ m ih =>
    refine ⟨?_, ?_, ?_⟩
    · simp only [createSeqLens, seqLen, if_pos h, ih.1]
    · simp only [createSeqLens, List.length_append, List.length_cons,
        List.length_nil, ih.2.1]
    · intro i hi
      simp only [createSeqLens]
      by_cases him : i < m
      · rw [List.getD_append _ _ _ _ (by rw [ih.2.1]; exact him)]
        exact ih.2.2 i him
      · have him2 : i = m := by omega
        subst him2
        rw [List.getD_append_right _ _ _ _ (by rw [ih.2.1])]
        rw [ih.2.1, Nat.sub_self]
        simp only [seqLen, if_pos h, ih.1]
        rfl

/-- C6 witness: two sequences from a stream of finite draws of value
`7/2`: two draws are consumed, two lengths produced, the first length
being `max ⌊7/2⌋ 1 = 3`. -/
theorem c6_witness :
    (createSeqLens 5 1 (fun _ => Dbl.fin (7 / 2)) 2).2 = 2 ∧
    (createSeqLens 5 1 (fun _ => Dbl.fin (7 / 2)) 2).1.length = 2 ∧
    (createSeqLens 5 1 (fun _ => Dbl.fin (7 / 2)) 2).1.getD 0 0
      = max (castU32 (Dbl.fin (7 / 2))) 1 := by
  have h := c6_no_retry_amended 5 1 (fun _ => Dbl.fin (7 / 2)) 2 (by norm_num)
  exact ⟨h.1, h.2.1, h.2.2 0 (by norm_num)⟩

/-- C7: the code violates the claim's (and its own documentation's)
guarantee that no generated sequence is empty.  At the failing input
`n_seqs = 1`, `len_mean = 1/2`, `len_sd = 0`, the `else` branch
`len = len_mean` truncates `0.5` to `0` with no clamp, so the single
generated sequence has length `0` — it is empty — and no gamma draw is
consumed.  (`create_sequences.cpp` documents "this function will never
return empty sequences", but the `if (len < 1) len = 1` clamp exists
only in the `len_sd > 0` branch.) -/
theorem c7_empty_sequence_bug :
    createSeqLens (1 / 2) 0 (fun _ => Dbl.fin 100) 1 = ([0], 0) := by
  norm_num [createSeqLens, seqLen, castU32]

/- ======================================================================
   C9, C10 — AllMutations
   ====================================================================== -/

lemma fillOneNucleos_next_le (h : Heap) (nts : Option (List Char)) :
    h.next ≤ (fillOneNucleos h nts).2.next := by
  cases nts with
  | none => exact le_refl _
  | some str => exact Nat.le_succ _

lemma fillOneNucleos_mem_lt (h : Heap) (nts : Option (List Char)) (p : ℕ)
    (hp : p < h.next) : (fillOneNucleos h nts).2.mem p = h.mem p := by
  cases nts with
  | none => rfl
  | some str =>
    simp only [fillOneNucleos, Heap.alloc]
    rw [if_neg (by omega)]

lemma copyNucleos_length (h : Heap) (l : List (Option ℕ)) :
    (copyNucleos h l).1.length = l.length := by
  induction l generalizing h with
  | nil => rfl
  | cons nt rest ih =>
    simp only [copyNucleos, List.length_cons, ih]

lemma copyNucleos_next_le (h : Heap) (l : List (Option ℕ)) :
    h.next ≤ (copyNucleos h l).2.next := by
  induction l generalizing h with
  | nil => exact le_refl _
  | cons nt rest ih =>
    exact le_trans (fillOneNucleos_next_le h (h.strAt nt)) (ih _)

lemma copyNucleos_mem_lt (h : Heap) (l : List (Option ℕ)) (p : ℕ)
    (hp : p < h.next) : (copyNucleos h l).2.mem p = h.mem p := by
  induction l generalizing h with
  | nil => rfl
  | cons nt rest ih =>
    have h2 := fillOneNucleos_next_le h (h.strAt nt)
    rw [show (copyNucleos h (nt :: rest)).2
        = (copyNucleos (fillOneNucleos h (h.strAt nt)).2 rest).2 from rfl]
    rw [ih _ (by omega), fillOneNucleos_mem_lt h _ p hp]

lemma copyNucleos_fresh (h : Heap) (l : List (Option ℕ)) :
    ∀ p ∈ ptrs (copyNucleos h l).1, h.next ≤ p := by
  induction l generalizing h with
  | nil => intro p hp; cases hp
  | cons nt rest ih =>
    intro p hp
    rw [show (copyNucleos h (nt :: rest)).1
        = (fillOneNucleos h (h.strAt nt)).1
          :: (copyNucleos (fillOneNucleos h (h.strAt nt)).2 rest).1 from rfl]
      at hp
    have h2 := fillOneNucleos_next_le h (h.strAt nt)
    rcases List.mem_filterMap.mp hp with ⟨a, ha, hap⟩
    rcases List.mem_cons.mp ha with ha1 | ha2
    · subst ha1
      cases nt with
      | none => cases hap
      | some q =>
        simp only [fillOneNucleos, Heap.strAt, Option.map_some, Heap.alloc,
          id_eq] at hap ⊢
        cases hap
        exact le_refl _
    · have := ih (fillOneNucleos h (h.strAt nt)).2 p
        (List.mem_filterMap.mpr ⟨a, ha2, hap⟩)
      omega

lemma strAt_congr (h h2 : Heap) (q : Option ℕ)
    (hq : ∀ p, q = some p → h2.mem p = h.mem p) :
    h2.strAt q = h.strAt q := by
  cases q with
  | none => rfl
  | some p => simp [Heap.strAt, hq p rfl]

lemma mem_of_getD (l : List (Option ℕ)) (j : ℕ) (p : ℕ)
    (h : l.getD j none = some p) : some p ∈ l := by
  by_cases hj : j < l.length
  · rw [List.getD_eq_getElem _ _ hj] at h
    rw [← h]
    exact List.getElem_mem _
  · rw [List.getD_eq_default _ _ (Nat.le_of_not_lt hj)] at h
    cases h

lemma copyNucleos_strAt (h : Heap) (l : List (Option ℕ))
    (hv : ∀ p ∈ ptrs l, p < h.next) :
    ∀ i, (copyNucleos h l).2.strAt ((copyNucleos h l).1.getD i none)
      = h.strAt (l.getD i none) := by
  induction l generalizing h with
  | nil => intro i; rfl
  | cons nt rest ih =>
    intro i
    have h2 := fillOneNucleos_next_le h (h.strAt nt)
    have hvrest : ∀ p ∈ ptrs rest, p < (fillOneNucleos h (h.strAt nt)).2.next := by
      intro p hp
      have := hv p (List.mem_filterMap.mpr
        (by rcases List.mem_filterMap.mp hp with ⟨a, ha, hap⟩
            exact ⟨a, List.mem_cons_of_mem _ ha, hap⟩))
      omega
    rw [show copyNucleos h (nt :: rest)
        = ((fillOneNucleos h (h.strAt nt)).1
            :: (copyNucleos (fillOneNucleos h (h.strAt nt)).2 rest).1,
          (copyNucleos (fillOneNucleos h (h.strAt nt)).2 rest).2) from rfl]
    cases i with
    | zero =>
      cases hnt : nt with
      | none =>
        simp only [hnt, List.getD_cons_zero, Heap.strAt, fillOneNucleos,
          Option.map_none]
        rfl
      | some q =>
        have hq : q < h.next := hv q (by simp [ptrs, hnt])
        simp only [hnt, List.getD_cons_zero]
        have hF1 : (fillOneNucleos h (h.strAt (some q))).1 = some h.next := rfl
        have hF2 : (fillOneNucleos h (h.strAt (some q))).2
            = (h.alloc ((h.mem q).getD [])).2 := rfl
        rw [hF1, hF2]
        have hmem : (copyNucleos (h.alloc ((h.mem q).getD [])).2 rest).2.mem
            h.next = some ((h.mem q).getD []) := by
          rw [copyNucleos_mem_lt _ _ _ (by simp only [Heap.alloc]; omega)]
          simp [Heap.alloc]
        simp [Heap.strAt, hmem]
    | succ j =>
      simp only [List.getD_cons_succ]
      rw [ih _ hvrest j]
      apply strAt_congr
      intro p hp
      have hmem := mem_of_getD rest j p hp
      have hplt : p < h.next := hv p (List.mem_filterMap.mpr
        ⟨some p, List.mem_cons_of_mem _ hmem, rfl⟩)
      exact fillOneNucleos_mem_lt h _ p hplt

lemma freeNucleos_next (h : Heap) (l : List (Option ℕ)) :
    (freeNucleos h l).next = h.next := by
  induction l generalizing h with
  | nil => rfl
  | cons nt rest ih =>
    cases nt with
    | none => exact ih h
    | some q => exact ih _

lemma freeNucleos_mem (h : Heap) (l : List (Option ℕ)) (p : ℕ)
    (hp : p ∉ ptrs l) : (freeNucleos h l).mem p = h.mem p := by
  induction l generalizing h with
  | nil => rfl
  | cons nt rest ih =>
    cases nt with
    | none =>
      exact ih h (fun hmem => hp (List.mem_filterMap.mpr
        (by rcases List.mem_filterMap.mp hmem with ⟨a, ha, hap⟩
            exact ⟨a, List.mem_cons_of_mem _ ha, hap⟩)))
    | some q =>
      have hpq : p ≠ q := fun hEq => hp (by
        subst hEq
        exact List.mem_filterMap.mpr ⟨some p, List.mem_cons_self _ _, rfl⟩)
      have hrest : p ∉ ptrs rest := fun hmem => hp (List.mem_filterMap.mpr
        (by rcases List.mem_filterMap.mp hmem with ⟨a, ha, hap⟩
            exact ⟨a, List.mem_cons_of_mem _ ha, hap⟩))
      rw [show freeNucleos h (some q :: rest)
          = freeNucleos (h.free q) rest from rfl]
      rw [ih _ hrest]
      simp only [Heap.free]
      rw [if_neg hpq]

/-- C9 (confirmed): copying a mutation log — by copy construction or by
copy assignment onto a destination whose blocks are disjoint from the
source's — yields a log with equal `size_modifier`, `old_pos` and
`new_pos` sequences and with per-record nucleotide strings byte-for-byte
equal to the source's, but held in freshly allocated storage disjoint
from the source's pointers; every heap block owned by the source is left
unchanged by the operation. -/
theorem c9_copy_owns_bytes (m dest : AllMutations) (h : Heap)
    (hv : ∀ p ∈ ptrs m.nucleos, p < h.next)
    (hd : ∀ p ∈ ptrs m.nucleos, p ∉ ptrs dest.nucleos) :
    ((m.copy h).1.size_modifier = m.size_modifier ∧
     (m.copy h).1.old_pos = m.old_pos ∧
     (m.copy h).1.new_pos = m.new_pos ∧
     (m.copy h).1.nucleos.length = m.nucleos.length ∧
     (∀ i, (m.copy h).2.strAt ((m.copy h).1.nucleos.getD i none)
        = h.strAt (m.nucleos.getD i none)) ∧
     (∀ p ∈ ptrs (m.copy h).1.nucleos, p ∉ ptrs m.nucleos) ∧
     (∀ p ∈ ptrs m.nucleos, (m.copy h).2.mem p = h.mem p)) ∧
    ((AllMutations.assign dest m h).1.size_modifier = m.size_modifier ∧
     (AllMutations.assign dest m h).1.old_pos = m.old_pos ∧
     (AllMutations.assign dest m h).1.new_pos = m.new_pos ∧
     (AllMutations.assign dest m h).1.nucleos.length = m.nucleos.length ∧
     (∀ i, (AllMutations.assign dest m h).2.strAt
          ((AllMutations.assign dest m h).1.nucleos.getD i none)
        = h.strAt (m.nucleos.getD i none)) ∧
     (∀ p ∈ ptrs (AllMutations.assign dest m h).1.nucleos,
        p ∉ ptrs m.nucleos) ∧
     (∀ p ∈ ptrs m.nucleos,
        (AllMutations.assign dest m h).2.mem p = h.mem p)) := by
  have hnext1 : (freeNucleos h dest.nucleos).next = h.next :=
    freeNucleos_next h dest.nucleos
  have hv1 : ∀ p ∈ ptrs m.nucleos, p < (freeNucleos h dest.nucleos).next := by
    intro p hp
    rw [hnext1]
    exact hv p hp
  have hfree : ∀ p ∈ ptrs m.nucleos,
      (freeNucleos h dest.nucleos).mem p = h.mem p := by
    intro p hp
    exact freeNucleos_mem h dest.nucleos p (hd p hp)
  constructor
  · refine ⟨rfl, rfl, rfl, copyNucleos_length h m.nucleos, ?_, ?_, ?_⟩
    · intro i
      exact copyNucleos_strAt h m.nucleos hv i
    · intro p hp hmem
      have hf := copyNucleos_fresh h m.nucleos p hp
      have := hv p hmem
      omega
    · intro p hp
      exact copyNucleos_mem_lt h m.nucleos p (hv p hp)
  · refine ⟨rfl, rfl, rfl, copyNucleos_length _ m.nucleos, ?_, ?_, ?_⟩
    · intro i
      have hstep := copyNucleos_strAt (freeNucleos h dest.nucleos)
        m.nucleos hv1 i
      rw [show (AllMutations.assign dest m h).2
          = (copyNucleos (freeNucleos h dest.nucleos) m.nucleos).2 from rfl]
      rw [show (AllMutations.assign dest m h).1.nucleos
          = (copyNucleos (freeNucleos h dest.nucleos) m.nucleos).1 from rfl]
      rw [hstep]
      apply strAt_congr
      intro p hp
      have hmem := mem_of_getD m.nucleos i p hp
      exact hfree p (List.mem_filterMap.mpr ⟨some p, hmem, rfl⟩)
    · intro p hp hmem
      have hf := copyNucleos_fresh (freeNucleos h dest.nucleos) m.nucleos p hp
      rw [hnext1] at hf
      have := hv p hmem
      omega
    · intro p hp
      rw [show (AllMutations.assign dest m h).2
          = (copyNucleos (freeNucleos h dest.nucleos) m.nucleos).2 from rfl]
      rw [copyNucleos_mem_lt _ m.nucleos p (hv1 p hp)]
      exact hfree p hp

/-- C9 witness: the copy theorem applied to the concrete log `m0`
(records `"A"` and `"CG"` at blocks `0` and `1` of `h0`) and assignment
destination `d0`: record `0` of the copy reads as `"A"` in the new heap,
the source's block `0` is untouched, and the three scalar deques are
copied verbatim. -/
theorem c9_witness :
    (m0.copy h0).1.old_pos = m0.old_pos ∧
    (m0.copy h0).2.strAt ((m0.copy h0).1.nucleos.getD 0 none)
      = h0.strAt (m0.nucleos.getD 0 none) ∧
    (∀ p ∈ ptrs (m0.copy h0).1.nucleos, p ∉ ptrs m0.nucleos) ∧
    (AllMutations.assign d0 m0 h0).1.new_pos = m0.new_pos ∧
    (∀ p ∈ ptrs m0.nucleos,
      (AllMutations.assign d0 m0 h0).2.mem p = h0.mem p) := by
  have h := c9_copy_owns_bytes m0 d0 h0
    (by intro p hp; simp [m0, ptrs] at hp; rcases hp with h1 | h1 <;>
      simp [h1, h0])
    (by intro p hp; simp [d0, ptrs])
  exact ⟨h.1.2.1, h.1.2.2.2.2.1 0, h.1.2.2.2.2.2.1, h.2.2.2.1,
    h.2.2.2.2.2.2.2⟩

/-- C10 (confirmed): every public operation of `AllMutations` —
`push_front` and `push_back` (both overloads), `insert` at an index
(both overloads), `erase` of one record, `erase` of a range, `clear`,
copy construction, and copy assignment — preserves the invariant that
the four parallel deques have equal length; consequently `size()` and
`empty()`, which consult only `old_pos`, describe all four. -/
theorem c10_parallel_invariant (m src : AllMutations) (h : Heap)
    (sm : ℤ) (op np : ℕ) (nts : Option (List Char)) (c : Char)
    (ind i1 i2 : ℕ) (hm : parallelInv m) (hs : parallelInv src) :
    parallelInv (m.push_front sm op np nts h).1 ∧
    parallelInv (m.push_front_chr sm op np c h).1 ∧
    parallelInv (m.push_back sm op np nts h).1 ∧
    parallelInv (m.push_back_chr sm op np c h).1 ∧
    parallelInv (m.insertAt ind sm op np nts h).1 ∧
    parallelInv (m.insertAt_chr ind sm op np c h).1 ∧
    parallelInv (m.eraseAt ind h).1 ∧
    parallelInv (m.eraseRange i1 i2 h).1 ∧
    parallelInv m.clear ∧
    parallelInv (m.copy h).1 ∧
    parallelInv (AllMutations.assign m src h).1 ∧
    m.size = m.size_modifier.length ∧ m.size = m.new_pos.length ∧
    m.size = m.nucleos.length ∧ (m.emptyq = true ↔ m.size = 0) := by
  obtain ⟨hm1, hm2, hm3⟩ := hm
  obtain ⟨hs1, hs2, hs3⟩ := hs
  refine ⟨?_, ?_, ?_, ?_, ?_, ?_, ?_, ?_, ?_, ?_, ?_, ?_, ?_, ?_, ?_⟩
  · exact ⟨by simp [AllMutations.push_front, hm1],
      by simp [AllMutations.push_front, hm2],
      by simp [AllMutations.push_front, hm3]⟩
  · exact ⟨by simp [AllMutations.push_front_chr, hm1],
      by simp [AllMutations.push_front_chr, hm2],
      by simp [AllMutations.push_front_chr, hm3]⟩
  · exact ⟨by simp [AllMutations.push_back, hm1],
      by simp [AllMutations.push_back, hm2],
      by simp [AllMutations.push_back, hm3]⟩
  · exact ⟨by simp [AllMutations.push_back_chr, hm1],
      by simp [AllMutations.push_back_chr, hm2],
      by simp [AllMutations.push_back_chr, hm3]⟩
  · exact ⟨by simp [AllMutations.insertAt, hm1],
      by simp [AllMutations.insertAt, hm2],
      by simp [AllMutations.insertAt, hm3]⟩
  · exact ⟨by simp [AllMutations.insertAt_chr, hm1],
      by simp [AllMutations.insertAt_chr, hm2],
      by simp [AllMutations.insertAt_chr, hm3]⟩
  · exact ⟨by simp [AllMutations.eraseAt, hm1],
      by simp [AllMutations.eraseAt, hm2],
      by simp [AllMutations.eraseAt, hm3]⟩
  · exact ⟨by simp [AllMutations.eraseRange, hm1],
      by simp [AllMutations.eraseRange, hm2],
      by simp [AllMutations.eraseRange, hm3]⟩
  · unfold AllMutations.clear
    by_cases hz : m.old_pos.length = 0
    · rw [if_pos hz]
      exact ⟨hm1, hm2, hm3⟩
    · rw [if_neg hz]
      exact ⟨rfl, rfl, rfl⟩
  · exact ⟨by simp [AllMutations.copy, copyNucleos_length, hm1],
      by simp [AllMutations.copy, copyNucleos_length, hm2],
      by simp [AllMutations.copy, copyNucleos_length, hm3]⟩
  · exact ⟨by simp [AllMutations.assign, copyNucleos_length, hs1],
      by simp [AllMutations.assign, copyNucleos_length, hs2],
      by simp [AllMutations.assign, copyNucleos_length, hs3]⟩
  · exact hm1.symm
  · exact hm2.symm
  · exact hm3.symm
  · simp [AllMutations.emptyq, AllMutations.size, List.isEmpty_iff,
      List.length_eq_zero]

/-- C10 witness: the invariant theorem applied to the concrete log `m0`
(all four deques of length 2), destination `d0` and heap `h0`, with an
insertion in the middle and a one-record erase. -/
theorem c10_witness :
    parallelInv (m0.insertAt 1 5 2 2 (some ['T']) h0).1 ∧
    parallelInv (m0.eraseAt 0 h0).1 ∧
    parallelInv (AllMutations.assign m0 d0 h0).1 ∧
    (m0.emptyq = true ↔ m0.size = 0) := by
  have h := c10_parallel_invariant m0 d0 h0 5 2 2 (some ['T']) 'T' 1 0 1
    (by decide) (by decide)
  exact ⟨h.2.2.2.2.1, h.2.2.2.2.2.2.1, h.2.2.2.2.2.2.2.2.2.2.1,
    h.2.2.2.2.2.2.2.2.2.2.2.2.2.2⟩

end Jackalope
